import Mathlib

/-!
Verification of `backend/danswer/background/indexing/job_client.py`: a
lightweight in-process job scheduler.  `SimpleJob` is a future-like handle for
one spawned worker process; `SimpleJobClient` owns a capacity-bounded map of
tracked jobs, assigns monotonically increasing ids, and prunes completed jobs
lazily at the start of each `submit` call.

The OS process backing a job is modelled by its observable state: whether it
is currently alive (`is_alive`) and the exit code it has reported
(`exitcode`, absent while running or when the process was terminated before
it could report one).  The termination signal issued by `release` is returned
explicitly, so that side-effect-freeness of the other paths can be stated.
The `jobs` dict is modelled as an insertion-ordered association list with
Python dict semantics (unique keys; insert with a fresh key appends, insert
with a present key overwrites in place; delete filters the key out).
-/

/-- Observable state of a spawned OS process: liveness and reported exit
code (`none` while it has not reported one). -/
structure ProcState where
  is_alive : Bool
  exitcode : Option Int
deriving DecidableEq, Repr

/-- The five-valued job status enumeration `JobStatusType`. -/
inductive JobStatusType where
  | error
  | finished
  | pending
  | running
  | cancelled
deriving DecidableEq, Repr

/-- A signal a job can issue to its backing OS process. -/
inductive ProcSignal where
  | terminate
deriving DecidableEq, Repr

/-- `SimpleJob`: id plus an optional handle to the backing process. -/
structure SimpleJob where
  id : Nat
  process : Option ProcState
deriving DecidableEq, Repr

/-- `SimpleJob.release`: if a process is attached and alive, terminate it and
return `True`; otherwise return `False`.  The second component records the
signals issued to the OS process (empty on the no-op path). -/
def SimpleJob.release (j : SimpleJob) : Bool × List ProcSignal :=
  match j.process with
  | some p => if p.is_alive then (true, [ProcSignal.terminate]) else (false, [])
  | none => (false, [])

/-- `SimpleJob.cancel`: delegates to `release`. -/
def SimpleJob.cancel (j : SimpleJob) : Bool × List ProcSignal :=
  j.release

/-- `SimpleJob.status`: `pending` if no process, `running` if alive,
`cancelled` if no exit code is available, `error` on a positive exit code,
`finished` otherwise. -/
def SimpleJob.status (j : SimpleJob) : JobStatusType :=
  match j.process with
  | none => JobStatusType.pending
  | some p =>
    if p.is_alive then JobStatusType.running
    else
      match p.exitcode with
      | none => JobStatusType.cancelled
      | some code =>
        if code > 0 then JobStatusType.error else JobStatusType.finished

/-- `SimpleJob.done`: status is `finished`, `cancelled` or `error`. -/
def SimpleJob.done (j : SimpleJob) : Bool :=
  j.status == JobStatusType.finished || j.status == JobStatusType.cancelled
    || j.status == JobStatusType.error

/-- The status derivation exactly as the specification words its tie-break
rule (spec §4.1): no-process → pending; else alive → running; else
exit-code-unavailable → cancelled; else exit-code>0 → error; else →
finished. -/
def statusSpec (j : SimpleJob) : JobStatusType :=
  match j.process with
  | none => JobStatusType.pending
  | some p =>
    if p.is_alive then JobStatusType.running
    else if p.exitcode = none then JobStatusType.cancelled
    else if 0 < p.exitcode.getD 0 then JobStatusType.error
    else JobStatusType.finished

/-- Terminal statuses: `finished`, `cancelled`, `error`. -/
def JobStatusType.isTerminal : JobStatusType → Bool
  | JobStatusType.finished => true
  | JobStatusType.cancelled => true
  | JobStatusType.error => true
  | _ => false

/-- Monotone evolution of the observable state of one OS process: a dead
process never becomes alive again, and a reported exit code never changes
afterwards. -/
def ProcState.Evolves (p q : ProcState) : Prop :=
  (p.is_alive = false → q.is_alive = false) ∧
    (∀ c : Int, p.exitcode = some c → q.exitcode = some c)

/-- The `self.jobs` dict: an insertion-ordered association list from job id
to `SimpleJob`. -/
abbrev JobMap := List (Nat × SimpleJob)

/-- `dict.get(k)`: the value at the first (unique) entry with key `k`. -/
def mapGet (m : JobMap) (k : Nat) : Option SimpleJob :=
  (m.find? (fun kv => kv.1 == k)).map Prod.snd

/-- `del dict[k]`: remove the entry with key `k`, keeping the others in
order. -/
def mapDelete (m : JobMap) (k : Nat) : JobMap :=
  m.filter (fun kv => !(kv.1 == k))

/-- `dict[k] = v`: overwrite in place when `k` is present, append
otherwise. -/
def mapInsert (m : JobMap) (k : Nat) (v : SimpleJob) : JobMap :=
  if m.any (fun kv => kv.1 == k) then
    m.map (fun kv => if kv.1 == k then (k, v) else kv)
  else m ++ [(k, v)]

/-- `SimpleJobClient`: worker capacity, id counter, and the tracked-jobs
map. -/
structure SimpleJobClient where
  n_workers : Int
  job_id_counter : Nat
  jobs : JobMap
deriving DecidableEq, Repr

/-- `SimpleJobClient.__init__`: store the capacity unvalidated, start the
counter at 0 with no tracked jobs. -/
def SimpleJobClient.init (n_workers : Int) : SimpleJobClient :=
  { n_workers := n_workers, job_id_counter := 0, jobs := [] }

/-- One iteration of the cleanup loop body: look the id up in the current
map and, when the job is found and done, delete it (by `job.id`, as the
source does). -/
def cleanupStep (m : JobMap) (job_id : Nat) : JobMap :=
  match mapGet m job_id with
  | some job => if job.done then mapDelete m job.id else m
  | none => m

/-- `SimpleJobClient._cleanup_completed_jobs`: snapshot the current keys,
then delete every tracked job whose `done()` is true. -/
def SimpleJobClient.cleanup_completed_jobs (c : SimpleJobClient) : SimpleJobClient :=
  let current_job_ids := c.jobs.map Prod.fst
  { c with jobs := current_job_ids.foldl cleanupStep c.jobs }

/-- What one `submit` call returns and does: the returned handle (or
`none`), the client's state after the call, and the processes started
during the call. -/
structure SubmitResult where
  result : Option SimpleJob
  client : SimpleJobClient
  started : List ProcState
deriving DecidableEq, Repr

/-- `SimpleJobClient.submit`: run the cleanup pass, refuse (returning
`None`) when the pruned tracked count is at or above `n_workers`, otherwise
allocate the next id, increment the counter, spawn and start a process
(abstracted by the `proc` argument) and register the new job. -/
def SimpleJobClient.submit (c : SimpleJobClient) (proc : ProcState) : SubmitResult :=
  let c1 := c.cleanup_completed_jobs
  if (c1.jobs.length : Int) ≥ c1.n_workers then
    { result := none, client := c1, started := [] }
  else
    let job_id := c1.job_id_counter
    let c2 := { c1 with job_id_counter := c1.job_id_counter + 1 }
    let job : SimpleJob := { id := job_id, process := some proc }
    { result := some job
      client := { c2 with jobs := mapInsert c2.jobs job_id job }
      started := [proc] }

/-- The environment acting between client calls: each tracked job's backing
process moves to a new observable state (the map itself, the ids and the
counter are untouched — only the OS changes). -/
def SimpleJobClient.evolve (c : SimpleJobClient)
    (f : Nat → ProcState → ProcState) : SimpleJobClient :=
  { c with
    jobs := c.jobs.map (fun kv =>
      (kv.1, { kv.2 with process := kv.2.process.map (f kv.1) })) }

/-- One step of a client history: either a `submit` call (with the observable
state the spawned process would start in) or an environment step. -/
inductive ClientEvent where
  | submit (proc : ProcState)
  | evolve (f : Nat → ProcState → ProcState)

/-- Run a sequence of events, returning the final client state. -/
def runEvents (c : SimpleJobClient) : List ClientEvent → SimpleJobClient
  | [] => c
  | ClientEvent.submit p :: es => runEvents (c.submit p).client es
  | ClientEvent.evolve f :: es => runEvents (c.evolve f) es

/-- Run a sequence of events, returning the handles of the successful
submissions in order. -/
def runOutputs (c : SimpleJobClient) : List ClientEvent → List SimpleJob
  | [] => []
  | ClientEvent.submit p :: es =>
    match (c.submit p).result with
    | some j => j :: runOutputs (c.submit p).client es
    | none => runOutputs (c.submit p).client es
  | ClientEvent.evolve f :: es => runOutputs (c.evolve f) es

/-- Well-formedness of a client state, maintained by every operation: keys
are unique, each tracked job is keyed by its own id, and all keys are below
the id counter. -/
def SimpleJobClient.WF (c : SimpleJobClient) : Prop :=
  (c.jobs.map Prod.fst).Nodup ∧
    (∀ kv ∈ c.jobs, (kv : Nat × SimpleJob).2.id = kv.1) ∧
    (∀ kv ∈ c.jobs, (kv : Nat × SimpleJob).1 < c.job_id_counter)

/-- C3: for every `SimpleJob`, `status` is computed by exactly the spec's
priority order: no process → pending; else alive → running; else exit code
unavailable → cancelled; else exit code > 0 → error; else → finished. -/
theorem C3_status_priority_order (j : SimpleJob) : j.status = statusSpec j := by
  unfold SimpleJob.status statusSpec
  match j with
  | ⟨_, none⟩ => rfl
  | ⟨_, some p⟩ =>
    by_cases ha : p.is_alive
    · simp [ha]
    · cases he : p.exitcode with
      | none => simp [ha, he]
      | some code =>
        by_cases hc : code > 0 <;> simp [ha, he, hc, Option.getD]

/-- C4: a job whose live process was signalled via `cancel` (which reports
`true` and issues a terminate signal) and whose process is later observed no
longer alive with its exit code unavailable reads `cancelled`, not
`error`. -/
theorem C4_cancel_reads_cancelled (j j' : SimpleJob) (p p' : ProcState)
    (hp : j.process = some p) (halive : p.is_alive = true)
    (hp' : j'.process = some p') (hdead : p'.is_alive = false)
    (hcode : p'.exitcode = none) :
    j.cancel = (true, [ProcSignal.terminate]) ∧
      j'.status = JobStatusType.cancelled ∧ j'.status ≠ JobStatusType.error := by
  refine ⟨?_, ?_, ?_⟩
  · unfold SimpleJob.cancel SimpleJob.release
    rw [hp]
    simp [halive]
  · unfold SimpleJob.status
    rw [hp']
    simp [hdead, hcode]
  · unfold SimpleJob.status
    rw [hp']
    simp [hdead, hcode]

/-- Witness for C4 at a concrete job: process alive when cancelled, later
observed dead with no exit code. -/
theorem C4_cancel_reads_cancelled_witness :
    (SimpleJob.mk 0 (some ⟨true, none⟩)).cancel = (true, [ProcSignal.terminate]) ∧
      (SimpleJob.mk 0 (some ⟨false, none⟩)).status = JobStatusType.cancelled ∧
      (SimpleJob.mk 0 (some ⟨false, none⟩)).status ≠ JobStatusType.error :=
  C4_cancel_reads_cancelled (SimpleJob.mk 0 (some ⟨true, none⟩))
    (SimpleJob.mk 0 (some ⟨false, none⟩)) ⟨true, none⟩ ⟨false, none⟩
    rfl rfl rfl rfl rfl

/-- C5: `cancel` returns `true` iff a process is attached and alive (and then
a terminate signal is issued); if the process is absent or not alive, it
returns `false` and issues no signal. -/
theorem C5_cancel_iff_live_process (j : SimpleJob) :
    ((j.cancel.1 = true ↔ ∃ p, j.process = some p ∧ p.is_alive = true) ∧
      (j.cancel.1 = true → j.cancel.2 = [ProcSignal.terminate])) ∧
      (j.cancel.1 = false → j.cancel.2 = []) := by
  unfold SimpleJob.cancel SimpleJob.release
  match j with
  | ⟨_, none⟩ => simp
  | ⟨_, some p⟩ =>
    by_cases ha : p.is_alive
    · simp [ha]
    · simp [ha]

/-! ### Association-list map lemmas -/

lemma mapGet_cons_self (k : Nat) (j : SimpleJob) (m : JobMap) :
    mapGet ((k, j) :: m) k = some j := by
  simp [mapGet, List.find?]

lemma mapGet_cons_ne (k q : Nat) (j : SimpleJob) (m : JobMap) (h : q ≠ k) :
    mapGet ((k, j) :: m) q = mapGet m q := by
  have hb : (k == q) = false := beq_eq_false_iff_ne.mpr (Ne.symm h)
  simp [mapGet, List.find?, hb]

lemma mapGet_mem {m : JobMap} {k : Nat} {j : SimpleJob}
    (h : mapGet m k = some j) : (k, j) ∈ m := by
  unfold mapGet at h
  obtain ⟨kv, hfind, hsnd⟩ := Option.map_eq_some'.mp h
  have hmem := List.mem_of_find?_eq_some hfind
  have hkey : kv.1 = k := by simpa using List.find?_some hfind
  obtain ⟨a, b⟩ := kv
  simp only at hkey hsnd
  rw [← hkey, ← hsnd]
  exact hmem

lemma mapDelete_cons_self (k : Nat) (j : SimpleJob) (m : JobMap) :
    mapDelete ((k, j) :: m) k = mapDelete m k := by
  simp [mapDelete]

lemma mapDelete_cons_ne (k q : Nat) (j : SimpleJob) (m : JobMap) (h : q ≠ k) :
    mapDelete ((k, j) :: m) q = (k, j) :: mapDelete m q := by
  have hb : (k == q) = false := beq_eq_false_iff_ne.mpr (Ne.symm h)
  simp [mapDelete, hb]

lemma mapDelete_of_not_mem (m : JobMap) (k : Nat) (h : k ∉ m.map Prod.fst) :
    mapDelete m k = m := by
  unfold mapDelete
  apply List.filter_eq_self.mpr
  intro kv hkv
  have hne : kv.1 ≠ k := by
    intro he
    exact h (he ▸ List.mem_map_of_mem Prod.fst hkv)
  simp [hne]

lemma mapDelete_length_le (m : JobMap) (k : Nat) :
    (mapDelete m k).length ≤ m.length :=
  List.length_filter_le _ _

lemma mapInsert_length_le (m : JobMap) (k : Nat) (v : SimpleJob) :
    (mapInsert m k v).length ≤ m.length + 1 := by
  unfold mapInsert
  split
  · simp
  · simp

lemma mapInsert_fresh (m : JobMap) (k : Nat) (v : SimpleJob)
    (h : k ∉ m.map Prod.fst) : mapInsert m k v = m ++ [(k, v)] := by
  unfold mapInsert
  rw [if_neg]
  intro hany
  obtain ⟨kv, hkv, hb⟩ := List.any_eq_true.mp hany
  have : kv.1 = k := by simpa using hb
  exact h (this ▸ List.mem_map_of_mem Prod.fst hkv)

/-! ### Cleanup pass lemmas -/

lemma cleanupStep_length_le (m : JobMap) (k : Nat) :
    (cleanupStep m k).length ≤ m.length := by
  unfold cleanupStep
  cases h : mapGet m k with
  | none => exact Nat.le_refl _
  | some job =>
    by_cases hd : job.done = true
    · simpa [hd] using mapDelete_length_le m job.id
    · simp [hd]

lemma foldl_cleanupStep_length_le (ks : List Nat) :
    ∀ m : JobMap, (ks.foldl cleanupStep m).length ≤ m.length := by
  induction ks with
  | nil => intro m; simp
  | cons k ks ih =>
    intro m
    rw [List.foldl_cons]
    exact le_trans (ih (cleanupStep m k)) (cleanupStep_length_le m k)

lemma cleanup_jobs_length_le (c : SimpleJobClient) :
    c.cleanup_completed_jobs.jobs.length ≤ c.jobs.length :=
  foldl_cleanupStep_length_le _ _

lemma cleanup_n_workers (c : SimpleJobClient) :
    c.cleanup_completed_jobs.n_workers = c.n_workers := rfl

lemma cleanup_job_id_counter (c : SimpleJobClient) :
    c.cleanup_completed_jobs.job_id_counter = c.job_id_counter := rfl

lemma cleanupStep_of_get_none {m : JobMap} {k : Nat} (hg : mapGet m k = none) :
    cleanupStep m k = m := by
  unfold cleanupStep
  rw [hg]

lemma cleanupStep_of_get_some {m : JobMap} {k : Nat} {job : SimpleJob}
    (hg : mapGet m k = some job) :
    cleanupStep m k = if job.done then mapDelete m job.id else m := by
  unfold cleanupStep
  rw [hg]

lemma foldl_cleanupStep_cons (ks : List Nat) :
    ∀ (k : Nat) (j : SimpleJob) (rest : JobMap), k ∉ ks →
      (∀ kv ∈ rest, (kv : Nat × SimpleJob).2.id = kv.1) →
      ks.foldl cleanupStep ((k, j) :: rest) = (k, j) :: ks.foldl cleanupStep rest := by
  induction ks with
  | nil => intro k j rest _ _; rfl
  | cons q ks ih =>
    intro k j rest hk hid
    have hne : q ≠ k := fun h => hk (h ▸ List.mem_cons_self q ks)
    have hknotks : k ∉ ks := fun h => hk (List.mem_cons_of_mem _ h)
    rw [List.foldl_cons, List.foldl_cons]
    cases hg : mapGet rest q with
    | none =>
      have hget : mapGet ((k, j) :: rest) q = none := by
        rw [mapGet_cons_ne k q j rest hne]
        exact hg
      rw [cleanupStep_of_get_none hget, cleanupStep_of_get_none hg]
      exact ih k j rest hknotks hid
    | some job =>
      have hjid : job.id = q := hid (q, job) (mapGet_mem hg)
      have hget : mapGet ((k, j) :: rest) q = some job := by
        rw [mapGet_cons_ne k q j rest hne]
        exact hg
      by_cases hdone : job.done = true
      · rw [cleanupStep_of_get_some hget, cleanupStep_of_get_some hg,
          if_pos hdone, if_pos hdone, hjid, mapDelete_cons_ne k q j rest hne]
        exact ih k j (mapDelete rest q) hknotks
          (fun kv hkv => hid kv (List.mem_of_mem_filter hkv))
      · rw [cleanupStep_of_get_some hget, cleanupStep_of_get_some hg,
          if_neg hdone, if_neg hdone]
        exact ih k j rest hknotks hid

lemma foldl_cleanupStep_keys_eq_filter :
    ∀ m : JobMap, (m.map Prod.fst).Nodup →
      (∀ kv ∈ m, (kv : Nat × SimpleJob).2.id = kv.1) →
      (m.map Prod.fst).foldl cleanupStep m = m.filter (fun kv => !kv.2.done) := by
  intro m
  induction m with
  | nil => intro _ _; rfl
  | cons hd rest ih =>
    intro hnd hid
    obtain ⟨k, j⟩ := hd
    have hjid : j.id = k := hid (k, j) (List.mem_cons_self _ _)
    simp only [List.map_cons] at hnd
    have hknot : k ∉ rest.map Prod.fst := (List.nodup_cons.mp hnd).1
    have hndrest : (rest.map Prod.fst).Nodup := (List.nodup_cons.mp hnd).2
    have hidrest : ∀ kv ∈ rest, (kv : Nat × SimpleJob).2.id = kv.1 :=
      fun kv h => hid kv (List.mem_cons_of_mem _ h)
    simp only [List.map_cons, List.foldl_cons]
    have hget : mapGet ((k, j) :: rest) k = some j := mapGet_cons_self k j rest
    by_cases hdone : j.done = true
    · have h1 : cleanupStep ((k, j) :: rest) k = rest := by
        rw [cleanupStep_of_get_some hget, if_pos hdone, hjid, mapDelete_cons_self,
          mapDelete_of_not_mem rest k hknot]
      rw [h1, ih hndrest hidrest]
      simp [List.filter_cons, hdone]
    · have h1 : cleanupStep ((k, j) :: rest) k = (k, j) :: rest := by
        rw [cleanupStep_of_get_some hget, if_neg hdone]
      rw [h1, foldl_cleanupStep_cons (rest.map Prod.fst) k j rest hknot hidrest,
        ih hndrest hidrest]
      simp [List.filter_cons, hdone]

lemma cleanup_jobs_eq_filter (c : SimpleJobClient)
    (hnd : (c.jobs.map Prod.fst).Nodup)
    (hid : ∀ kv ∈ c.jobs, (kv : Nat × SimpleJob).2.id = kv.1) :
    c.cleanup_completed_jobs.jobs = c.jobs.filter (fun kv => !kv.2.done) :=
  foldl_cleanupStep_keys_eq_filter c.jobs hnd hid

/-! ### Submit characterization -/

lemma submit_of_ge (c : SimpleJobClient) (p : ProcState)
    (h : (c.cleanup_completed_jobs.jobs.length : Int) ≥ c.n_workers) :
    c.submit p =
      { result := none, client := c.cleanup_completed_jobs, started := [] } := by
  have hcond : (c.cleanup_completed_jobs.jobs.length : Int) ≥
      c.cleanup_completed_jobs.n_workers := by
    rw [cleanup_n_workers]
    exact h
  simp only [SimpleJobClient.submit]
  rw [if_pos hcond]

lemma submit_of_lt (c : SimpleJobClient) (p : ProcState)
    (h : (c.cleanup_completed_jobs.jobs.length : Int) < c.n_workers) :
    c.submit p =
      { result := some { id := c.job_id_counter, process := some p }
        client :=
          { n_workers := c.n_workers
            job_id_counter := c.job_id_counter + 1
            jobs := mapInsert c.cleanup_completed_jobs.jobs c.job_id_counter
              { id := c.job_id_counter, process := some p } }
        started := [p] } := by
  have hcond : ¬((c.cleanup_completed_jobs.jobs.length : Int) ≥
      c.cleanup_completed_jobs.n_workers) := by
    rw [cleanup_n_workers]
    exact not_le.mpr h
  simp only [SimpleJobClient.submit]
  rw [if_neg hcond]
  rfl

/-! ### Well-formedness preservation -/

lemma WF_init (n : Int) : (SimpleJobClient.init n).WF := by
  unfold SimpleJobClient.WF SimpleJobClient.init
  refine ⟨?_, ?_, ?_⟩ <;> simp

lemma WF_cleanup (c : SimpleJobClient) (h : c.WF) :
    c.cleanup_completed_jobs.WF := by
  obtain ⟨hnd, hid, hlt⟩ := h
  have hjobs := cleanup_jobs_eq_filter c hnd hid
  unfold SimpleJobClient.WF
  refine ⟨?_, ?_, ?_⟩
  · rw [hjobs]
    exact List.Nodup.sublist ((List.filter_sublist _).map Prod.fst) hnd
  · intro kv hkv
    rw [hjobs] at hkv
    exact hid kv (List.mem_of_mem_filter hkv)
  · intro kv hkv
    rw [hjobs] at hkv
    rw [cleanup_job_id_counter]
    exact hlt kv (List.mem_of_mem_filter hkv)

lemma counter_not_mem_cleanup_keys (c : SimpleJobClient) (h : c.WF) :
    c.job_id_counter ∉ c.cleanup_completed_jobs.jobs.map Prod.fst := by
  intro hmem
  obtain ⟨kv, hkv, hfst⟩ := List.mem_map.mp hmem
  have hlt := (WF_cleanup c h).2.2 kv hkv
  rw [cleanup_job_id_counter, hfst] at hlt
  exact lt_irrefl _ hlt

lemma WF_submit (c : SimpleJobClient) (p : ProcState) (h : c.WF) :
    (c.submit p).client.WF := by
  by_cases hge : (c.cleanup_completed_jobs.jobs.length : Int) ≥ c.n_workers
  · rw [submit_of_ge c p hge]
    exact WF_cleanup c h
  · rw [submit_of_lt c p (not_le.mp hge)]
    have hwfc := WF_cleanup c h
    obtain ⟨hnd, hid, hlt⟩ := hwfc
    have hfresh := counter_not_mem_cleanup_keys c h
    simp only
    rw [mapInsert_fresh _ _ _ hfresh]
    unfold SimpleJobClient.WF
    refine ⟨?_, ?_, ?_⟩
    · simp only [List.map_append, List.map_cons, List.map_nil]
      rw [List.nodup_append]
      refine ⟨hnd, List.nodup_singleton _, ?_⟩
      intro a ha hb
      simp only [List.mem_singleton] at hb
      subst hb
      exact hfresh ha
    · intro kv hkv
      rcases List.mem_append.mp hkv with h1 | h2
      · exact hid kv h1
      · simp only [List.mem_singleton] at h2
        rw [h2]
    · intro kv hkv
      rcases List.mem_append.mp hkv with h1 | h2
      · have := hlt kv h1
        rw [cleanup_job_id_counter] at this
        simp only
        omega
      · simp only [List.mem_singleton] at h2
        rw [h2]
        simp

lemma evolve_keys (c : SimpleJobClient) (f : Nat → ProcState → ProcState) :
    (c.evolve f).jobs.map Prod.fst = c.jobs.map Prod.fst := by
  unfold SimpleJobClient.evolve
  simp only
  rw [List.map_map]
  rfl

lemma evolve_job_id_counter (c : SimpleJobClient) (f : Nat → ProcState → ProcState) :
    (c.evolve f).job_id_counter = c.job_id_counter := rfl

lemma evolve_n_workers (c : SimpleJobClient) (f : Nat → ProcState → ProcState) :
    (c.evolve f).n_workers = c.n_workers := rfl

lemma evolve_length (c : SimpleJobClient) (f : Nat → ProcState → ProcState) :
    (c.evolve f).jobs.length = c.jobs.length := by
  unfold SimpleJobClient.evolve
  simp

lemma WF_evolve (c : SimpleJobClient) (f : Nat → ProcState → ProcState)
    (h : c.WF) : (c.evolve f).WF := by
  obtain ⟨hnd, hid, hlt⟩ := h
  unfold SimpleJobClient.WF
  refine ⟨?_, ?_, ?_⟩
  · rw [evolve_keys]
    exact hnd
  · intro kv hkv
    unfold SimpleJobClient.evolve at hkv
    simp only at hkv
    obtain ⟨kv0, hkv0, heq⟩ := List.mem_map.mp hkv
    rw [← heq]
    exact hid kv0 hkv0
  · intro kv hkv
    unfold SimpleJobClient.evolve at hkv
    simp only at hkv
    obtain ⟨kv0, hkv0, heq⟩ := List.mem_map.mp hkv
    rw [← heq, evolve_job_id_counter]
    exact hlt kv0 hkv0

lemma WF_runEvents (es : List ClientEvent) :
    ∀ c : SimpleJobClient, c.WF → (runEvents c es).WF := by
  induction es with
  | nil => intro c h; exact h
  | cons e es ih =>
    intro c h
    cases e with
    | submit p => exact ih _ (WF_submit c p h)
    | evolve f => exact ih _ (WF_evolve c f h)

/-! ### Small projection lemmas for `submit` and the runs -/

lemma submit_result_of_ge (c : SimpleJobClient) (p : ProcState)
    (h : (c.cleanup_completed_jobs.jobs.length : Int) ≥ c.n_workers) :
    (c.submit p).result = none := by
  rw [submit_of_ge c p h]

lemma submit_client_of_ge (c : SimpleJobClient) (p : ProcState)
    (h : (c.cleanup_completed_jobs.jobs.length : Int) ≥ c.n_workers) :
    (c.submit p).client = c.cleanup_completed_jobs := by
  rw [submit_of_ge c p h]

lemma submit_started_of_ge (c : SimpleJobClient) (p : ProcState)
    (h : (c.cleanup_completed_jobs.jobs.length : Int) ≥ c.n_workers) :
    (c.submit p).started = [] := by
  rw [submit_of_ge c p h]

lemma submit_result_of_lt (c : SimpleJobClient) (p : ProcState)
    (h : (c.cleanup_completed_jobs.jobs.length : Int) < c.n_workers) :
    (c.submit p).result = some { id := c.job_id_counter, process := some p } := by
  rw [submit_of_lt c p h]

lemma submit_client_counter_of_lt (c : SimpleJobClient) (p : ProcState)
    (h : (c.cleanup_completed_jobs.jobs.length : Int) < c.n_workers) :
    (c.submit p).client.job_id_counter = c.job_id_counter + 1 := by
  rw [submit_of_lt c p h]

lemma submit_client_jobs_of_lt (c : SimpleJobClient) (p : ProcState)
    (h : (c.cleanup_completed_jobs.jobs.length : Int) < c.n_workers) :
    (c.submit p).client.jobs = mapInsert c.cleanup_completed_jobs.jobs
      c.job_id_counter { id := c.job_id_counter, process := some p } := by
  rw [submit_of_lt c p h]

lemma submit_client_n_workers (c : SimpleJobClient) (p : ProcState) :
    (c.submit p).client.n_workers = c.n_workers := by
  by_cases hge : (c.cleanup_completed_jobs.jobs.length : Int) ≥ c.n_workers
  · rw [submit_of_ge c p hge]
    exact cleanup_n_workers c
  · rw [submit_of_lt c p (not_le.mp hge)]

lemma submit_client_counter_ge (c : SimpleJobClient) (p : ProcState) :
    c.job_id_counter ≤ (c.submit p).client.job_id_counter := by
  by_cases hge : (c.cleanup_completed_jobs.jobs.length : Int) ≥ c.n_workers
  · rw [submit_client_of_ge c p hge, cleanup_job_id_counter]
  · rw [submit_client_counter_of_lt c p (not_le.mp hge)]
    exact Nat.le_succ _

lemma runEvents_cons_submit (c : SimpleJobClient) (p : ProcState)
    (es : List ClientEvent) :
    runEvents c (ClientEvent.submit p :: es) = runEvents (c.submit p).client es := by
  simp only [runEvents]

lemma runEvents_cons_evolve (c : SimpleJobClient)
    (f : Nat → ProcState → ProcState) (es : List ClientEvent) :
    runEvents c (ClientEvent.evolve f :: es) = runEvents (c.evolve f) es := by
  simp only [runEvents]

lemma runOutputs_nil (c : SimpleJobClient) : runOutputs c [] = [] := rfl

lemma runOutputs_cons_evolve (c : SimpleJobClient)
    (f : Nat → ProcState → ProcState) (es : List ClientEvent) :
    runOutputs c (ClientEvent.evolve f :: es) = runOutputs (c.evolve f) es := by
  simp only [runOutputs]

lemma runOutputs_cons_submit_none (c : SimpleJobClient) (p : ProcState)
    (es : List ClientEvent) (h : (c.submit p).result = none) :
    runOutputs c (ClientEvent.submit p :: es) = runOutputs (c.submit p).client es := by
  simp only [runOutputs]
  rw [h]

lemma runOutputs_cons_submit_some (c : SimpleJobClient) (p : ProcState)
    (es : List ClientEvent) (j : SimpleJob) (h : (c.submit p).result = some j) :
    runOutputs c (ClientEvent.submit p :: es) =
      j :: runOutputs (c.submit p).client es := by
  simp only [runOutputs]
  rw [h]

/-! ### Trace invariants -/

lemma runEvents_length_le (n : Int) (es : List ClientEvent) :
    ∀ c : SimpleJobClient, c.n_workers = n → (c.jobs.length : Int) ≤ n →
      ((runEvents c es).jobs.length : Int) ≤ n ∧ (runEvents c es).n_workers = n := by
  induction es with
  | nil => intro c hw h; exact ⟨h, hw⟩
  | cons e es ih =>
    intro c hw h
    cases e with
    | evolve f =>
      rw [runEvents_cons_evolve]
      apply ih
      · rw [evolve_n_workers]; exact hw
      · rw [evolve_length]; exact h
    | submit p =>
      rw [runEvents_cons_submit]
      apply ih
      · rw [submit_client_n_workers]; exact hw
      · by_cases hge : (c.cleanup_completed_jobs.jobs.length : Int) ≥ c.n_workers
        · rw [submit_client_of_ge c p hge]
          have hle := cleanup_jobs_length_le c
          omega
        · have hlt := not_le.mp hge
          rw [submit_client_jobs_of_lt c p hlt]
          have hins := mapInsert_length_le c.cleanup_completed_jobs.jobs
            c.job_id_counter { id := c.job_id_counter, process := some p }
          rw [hw] at hlt
          omega

lemma runOutputs_counter_le (es : List ClientEvent) :
    ∀ c : SimpleJobClient, ∀ j ∈ runOutputs c es, c.job_id_counter ≤ j.id := by
  induction es with
  | nil => intro c j hj; simp [runOutputs_nil] at hj
  | cons e es ih =>
    intro c j hj
    cases e with
    | evolve f =>
      rw [runOutputs_cons_evolve] at hj
      have h := ih (c.evolve f) j hj
      rw [evolve_job_id_counter] at h
      exact h
    | submit p =>
      by_cases hge : (c.cleanup_completed_jobs.jobs.length : Int) ≥ c.n_workers
      · rw [runOutputs_cons_submit_none c p es (submit_result_of_ge c p hge)] at hj
        have h := ih (c.submit p).client j hj
        have hc : (c.submit p).client.job_id_counter = c.job_id_counter := by
          rw [submit_client_of_ge c p hge, cleanup_job_id_counter]
        omega
      · have hlt := not_le.mp hge
        rw [runOutputs_cons_submit_some c p es _ (submit_result_of_lt c p hlt)] at hj
        rcases List.mem_cons.mp hj with h1 | h2
        · rw [h1]
        · have h := ih (c.submit p).client j h2
          have hc := submit_client_counter_of_lt c p hlt
          omega

lemma runOutputs_pairwise (es : List ClientEvent) :
    ∀ c : SimpleJobClient,
      (runOutputs c es).Pairwise (fun a b => a.id < b.id) := by
  induction es with
  | nil => intro c; rw [runOutputs_nil]; exact List.Pairwise.nil
  | cons e es ih =>
    intro c
    cases e with
    | evolve f =>
      rw [runOutputs_cons_evolve]
      exact ih (c.evolve f)
    | submit p =>
      by_cases hge : (c.cleanup_completed_jobs.jobs.length : Int) ≥ c.n_workers
      · rw [runOutputs_cons_submit_none c p es (submit_result_of_ge c p hge)]
        exact ih (c.submit p).client
      · have hlt := not_le.mp hge
        rw [runOutputs_cons_submit_some c p es _ (submit_result_of_lt c p hlt)]
        rw [List.pairwise_cons]
        refine ⟨?_, ih (c.submit p).client⟩
        intro b hb
        have hlb := runOutputs_counter_le es (c.submit p).client b hb
        have hc := submit_client_counter_of_lt c p hlt
        show c.job_id_counter < b.id
        omega

lemma runEvents_n_workers (es : List ClientEvent) :
    ∀ c : SimpleJobClient, (runEvents c es).n_workers = c.n_workers := by
  induction es with
  | nil => intro c; rfl
  | cons e es ih =>
    intro c
    cases e with
    | submit p =>
      rw [runEvents_cons_submit, ih, submit_client_n_workers]
    | evolve f =>
      rw [runEvents_cons_evolve, ih, evolve_n_workers]

lemma runOutputs_nil_of_nonpos (es : List ClientEvent) :
    ∀ c : SimpleJobClient, c.n_workers ≤ 0 → runOutputs c es = [] := by
  induction es with
  | nil => intro c _; rfl
  | cons e es ih =>
    intro c hc
    cases e with
    | submit p =>
      have hge : (c.cleanup_completed_jobs.jobs.length : Int) ≥ c.n_workers := by
        omega
      rw [runOutputs_cons_submit_none c p es (submit_result_of_ge c p hge)]
      apply ih
      rw [submit_client_n_workers]
      exact hc
    | evolve f =>
      rw [runOutputs_cons_evolve]
      apply ih
      rw [evolve_n_workers]
      exact hc

/-- C1: with positive capacity, the tracked map never holds more than
`n_workers` jobs after any sequence of submissions and environment steps;
`submit` refuses whenever the post-cleanup count is at or above capacity,
and a successful `submit` adds exactly one job to the pruned map. -/
theorem C1_capacity_invariant (n : Int) (hn : 0 < n) (es : List ClientEvent) :
    (((runEvents (SimpleJobClient.init n) es).jobs.length : Int) ≤ n) ∧
    (∀ (c : SimpleJobClient) (p : ProcState),
      (c.cleanup_completed_jobs.jobs.length : Int) ≥ c.n_workers →
        (c.submit p).result = none) ∧
    (∀ (p : ProcState) (j : SimpleJob),
      ((runEvents (SimpleJobClient.init n) es).submit p).result = some j →
        ((runEvents (SimpleJobClient.init n) es).submit p).client.jobs.length =
          (runEvents (SimpleJobClient.init n) es).cleanup_completed_jobs.jobs.length
            + 1) := by
  refine ⟨?_, ?_, ?_⟩
  · exact (runEvents_length_le n es (SimpleJobClient.init n) rfl
      (by simp [SimpleJobClient.init]; omega)).1
  · intro c p h
    exact submit_result_of_ge c p h
  · intro p j hres
    have hwf : (runEvents (SimpleJobClient.init n) es).WF :=
      WF_runEvents es _ (WF_init n)
    by_cases hge : ((runEvents (SimpleJobClient.init n)
        es).cleanup_completed_jobs.jobs.length : Int) ≥
        (runEvents (SimpleJobClient.init n) es).n_workers
    · rw [submit_result_of_ge _ p hge] at hres
      exact absurd hres (by simp)
    · rw [submit_client_jobs_of_lt _ p (not_le.mp hge),
        mapInsert_fresh _ _ _ (counter_not_mem_cleanup_keys _ hwf)]
      simp

/-- Witness for C1 at capacity 1 and the empty event sequence. -/
theorem C1_capacity_invariant_witness :
    (0 : Int) < 1 ∧
    ((((runEvents (SimpleJobClient.init 1) []).jobs.length : Int) ≤ 1) ∧
      (∀ (c : SimpleJobClient) (p : ProcState),
        (c.cleanup_completed_jobs.jobs.length : Int) ≥ c.n_workers →
          (c.submit p).result = none) ∧
      (∀ (p : ProcState) (j : SimpleJob),
        ((runEvents (SimpleJobClient.init 1) []).submit p).result = some j →
          ((runEvents (SimpleJobClient.init 1) []).submit p).client.jobs.length =
            (runEvents (SimpleJobClient.init 1)
              []).cleanup_completed_jobs.jobs.length + 1)) :=
  ⟨by decide, C1_capacity_invariant 1 (by decide) []⟩

/-- C2: along any event sequence from a fresh client, the ids of successful
submissions are strictly increasing (hence never repeated), and each
successful `submit` returns the current counter value and increments the
counter by one. -/
theorem C2_id_monotonicity (n : Int) (es : List ClientEvent) :
    (runOutputs (SimpleJobClient.init n) es).Pairwise (fun a b => a.id < b.id) ∧
    (∀ (c : SimpleJobClient) (p : ProcState) (j : SimpleJob),
      (c.submit p).result = some j →
        j.id = c.job_id_counter ∧
          (c.submit p).client.job_id_counter = c.job_id_counter + 1) := by
  refine ⟨runOutputs_pairwise es _, ?_⟩
  intro c p j hres
  by_cases hge : (c.cleanup_completed_jobs.jobs.length : Int) ≥ c.n_workers
  · rw [submit_result_of_ge c p hge] at hres
    exact absurd hres (by simp)
  · have hlt := not_le.mp hge
    rw [submit_result_of_lt c p hlt] at hres
    constructor
    · injection hres with h
      rw [← h]
    · exact submit_client_counter_of_lt c p hlt

/-- C6: the cleanup pass keeps exactly the not-yet-done jobs; the admission
decision is taken against the pruned count; and environment steps (the only
thing happening between submit calls) never remove a tracked job, so a
completed job stays in the map until the next `submit`. -/
theorem C6_lazy_cleanup (c : SimpleJobClient) (hwf : c.WF) (p : ProcState) :
    (∀ (k : Nat) (j : SimpleJob),
      (k, j) ∈ c.cleanup_completed_jobs.jobs ↔ (k, j) ∈ c.jobs ∧ j.done = false) ∧
    ((c.submit p).result = none ↔
      (c.cleanup_completed_jobs.jobs.length : Int) ≥ c.n_workers) ∧
    (∀ f : Nat → ProcState → ProcState,
      (c.evolve f).jobs.map Prod.fst = c.jobs.map Prod.fst) := by
  refine ⟨?_, ?_, fun f => evolve_keys c f⟩
  · intro k j
    rw [cleanup_jobs_eq_filter c hwf.1 hwf.2.1, List.mem_filter]
    simp
  · constructor
    · intro hnone
      by_contra hge
      rw [submit_result_of_lt c p (not_le.mp hge)] at hnone
      exact absurd hnone (by simp)
    · intro hge
      exact submit_result_of_ge c p hge

/-- Witness for C6 at a client with one finished tracked job. -/
theorem C6_lazy_cleanup_witness :
    SimpleJobClient.WF
      (SimpleJobClient.mk 1 1
        [(0, SimpleJob.mk 0 (some (ProcState.mk false (some 0))))]) ∧
    ((∀ (k : Nat) (j : SimpleJob),
      (k, j) ∈ (SimpleJobClient.mk 1 1
          [(0, SimpleJob.mk 0 (some (ProcState.mk false
            (some 0))))]).cleanup_completed_jobs.jobs ↔
        (k, j) ∈ (SimpleJobClient.mk 1 1
          [(0, SimpleJob.mk 0 (some (ProcState.mk false (some 0))))]).jobs ∧
          j.done = false) ∧
    (((SimpleJobClient.mk 1 1
        [(0, SimpleJob.mk 0 (some (ProcState.mk false (some 0))))]).submit
        (ProcState.mk true none)).result = none ↔
      (((SimpleJobClient.mk 1 1
          [(0, SimpleJob.mk 0 (some (ProcState.mk false
            (some 0))))]).cleanup_completed_jobs.jobs.length : Int) ≥
        (SimpleJobClient.mk 1 1
          [(0, SimpleJob.mk 0 (some (ProcState.mk false (some 0))))]).n_workers)) ∧
    (∀ f : Nat → ProcState → ProcState,
      ((SimpleJobClient.mk 1 1
          [(0, SimpleJob.mk 0 (some (ProcState.mk false (some 0))))]).evolve
          f).jobs.map Prod.fst =
        (SimpleJobClient.mk 1 1
          [(0, SimpleJob.mk 0 (some (ProcState.mk false
            (some 0))))]).jobs.map Prod.fst)) :=
  ⟨⟨by decide, by decide, by decide⟩,
    C6_lazy_cleanup _ ⟨by decide, by decide, by decide⟩ (ProcState.mk true none)⟩

/-- C7: when the post-cleanup tracked count is at or above capacity,
`submit` returns the absent result as a normal value (no exception path
exists in the embedding): the whole call evaluates to `none` together with
the cleaned-up client and no started process. -/
theorem C7_backpressure_returns_none (c : SimpleJobClient) (p : ProcState)
    (h : (c.cleanup_completed_jobs.jobs.length : Int) ≥ c.n_workers) :
    c.submit p =
      { result := none, client := c.cleanup_completed_jobs, started := [] } :=
  submit_of_ge c p h

/-- Witness for C7 at a zero-capacity client. -/
theorem C7_backpressure_returns_none_witness :
    (((SimpleJobClient.init 0).cleanup_completed_jobs.jobs.length : Int) ≥
      (SimpleJobClient.init 0).n_workers) ∧
    (SimpleJobClient.init 0).submit { is_alive := true, exitcode := none } =
      { result := none, client := (SimpleJobClient.init 0).cleanup_completed_jobs,
        started := [] } :=
  ⟨by decide, C7_backpressure_returns_none _ _ (by decide)⟩

/-- C8: under monotone process evolution (dead processes stay dead, reported
exit codes never change) a job whose status reads terminal never later reads
`pending` or `running`; and a handle with a process attached never reports
`pending`. -/
theorem C8_status_monotone (j k : SimpleJob) (p q : ProcState)
    (hp : j.process = some p) (hq : k.process = some q)
    (hev : ProcState.Evolves p q) (hterm : j.status.isTerminal = true) :
    k.status.isTerminal = true ∧
      (∀ (m : SimpleJob) (r : ProcState), m.process = some r →
        m.status ≠ JobStatusType.pending) := by
  constructor
  · have hpd : p.is_alive = false := by
      by_contra hal
      rw [Bool.not_eq_false] at hal
      unfold SimpleJob.status at hterm
      rw [hp] at hterm
      simp [hal, JobStatusType.isTerminal] at hterm
    have hqd : q.is_alive = false := hev.1 hpd
    unfold SimpleJob.status
    rw [hq]
    cases hqe : q.exitcode with
    | none => simp [hqd, hqe, JobStatusType.isTerminal]
    | some code =>
      by_cases hc : code > 0 <;>
        simp [hqd, hqe, hc, JobStatusType.isTerminal]
  · intro m r hr
    unfold SimpleJob.status
    rw [hr]
    by_cases ha : r.is_alive = true
    · simp [ha]
    · rw [Bool.not_eq_true] at ha
      cases he : r.exitcode with
      | none => simp [ha, he]
      | some code => by_cases hc : code > 0 <;> simp [ha, he, hc]

/-- Witness for C8 at a job that exited with code 1 and an unchanged
process observation. -/
theorem C8_status_monotone_witness :
    (SimpleJob.mk 0 (some (ProcState.mk false (some 1)))).status.isTerminal
        = true ∧
      ((SimpleJob.mk 0 (some (ProcState.mk false (some 1)))).status.isTerminal
          = true ∧
        (∀ (m : SimpleJob) (r : ProcState), m.process = some r →
          m.status ≠ JobStatusType.pending)) :=
  ⟨by decide,
    C8_status_monotone (SimpleJob.mk 0 (some (ProcState.mk false (some 1))))
      (SimpleJob.mk 0 (some (ProcState.mk false (some 1))))
      (ProcState.mk false (some 1)) (ProcState.mk false (some 1))
      rfl rfl ⟨fun h => h, fun c h => h⟩ (by decide)⟩

/-- C9: a refused `submit` is side-effect-free beyond the cleanup pass: the
id counter is unchanged, no process is started, and the tracked map is
exactly the post-cleanup map. -/
theorem C9_refusal_frame (c : SimpleJobClient) (p : ProcState)
    (h : (c.submit p).result = none) :
    (c.submit p).client.job_id_counter = c.job_id_counter ∧
      (c.submit p).started = [] ∧
      (c.submit p).client.jobs = c.cleanup_completed_jobs.jobs := by
  by_cases hge : (c.cleanup_completed_jobs.jobs.length : Int) ≥ c.n_workers
  · refine ⟨?_, submit_started_of_ge c p hge, ?_⟩
    · rw [submit_client_of_ge c p hge, cleanup_job_id_counter]
    · rw [submit_client_of_ge c p hge]
  · rw [submit_result_of_lt c p (not_le.mp hge)] at h
    exact absurd h (by simp)

/-- Witness for C9 at a zero-capacity client, whose submissions are always
refused. -/
theorem C9_refusal_frame_witness :
    ((SimpleJobClient.init 0).submit (ProcState.mk true none)).result = none ∧
      (((SimpleJobClient.init 0).submit
          (ProcState.mk true none)).client.job_id_counter =
        (SimpleJobClient.init 0).job_id_counter ∧
      ((SimpleJobClient.init 0).submit (ProcState.mk true none)).started = [] ∧
      ((SimpleJobClient.init 0).submit (ProcState.mk true none)).client.jobs =
        (SimpleJobClient.init 0).cleanup_completed_jobs.jobs) :=
  ⟨by decide, C9_refusal_frame _ _ (by decide)⟩

/-- C10: the constructor does not enforce positive capacity; with
`n_workers ≤ 0` the tracked count (at least zero) is always at or above
capacity, so every `submit` along every event sequence returns `none` and no
job is ever admitted. -/
theorem C10_nonpositive_capacity_never_admits (n : Int) (hn : n ≤ 0)
    (es : List ClientEvent) (p : ProcState) :
    ((runEvents (SimpleJobClient.init n) es).submit p).result = none ∧
      runOutputs (SimpleJobClient.init n) es = [] := by
  constructor
  · apply submit_result_of_ge
    rw [runEvents_n_workers]
    simp only [SimpleJobClient.init]
    omega
  · apply runOutputs_nil_of_nonpos
    simp only [SimpleJobClient.init]
    omega

/-- Witness for C10 at capacity 0 and a one-submission event sequence. -/
theorem C10_nonpositive_capacity_never_admits_witness :
    (0 : Int) ≤ 0 ∧
      (((runEvents (SimpleJobClient.init 0)
          [ClientEvent.submit (ProcState.mk true none)]).submit
          (ProcState.mk true none)).result = none ∧
        runOutputs (SimpleJobClient.init 0)
          [ClientEvent.submit (ProcState.mk true none)] = []) :=
  ⟨by decide,
    C10_nonpositive_capacity_never_admits 0 (by decide)
      [ClientEvent.submit (ProcState.mk true none)] (ProcState.mk true none)⟩
